import Mathlib

/-!
Verification development for a small Rust path tracer.

The definitions below are a shallow embedding of the renderer's source:
`Vec3`/`Ray` model `nalgebra::Vector3<f64>` and `ray.rs`, `Sphere` and
`Sphere.intersect` model `geometry.rs`, the material scattering functions model
`material.rs`, the intersection record with its lazy caches models `object.rs`,
`Camera` models `camera.rs`, and the integrator (`ray_color`), hit selection
(`selectHit`) and the pixel codec quantization model `lib.rs`.
Machine floating point is modelled by real arithmetic; randomness drawn from
the thread-local generator is passed as explicit arguments or streams.
-/

noncomputable section

/-- Model of `nalgebra::Vector3<f64>`: three real components. -/
@[ext]
structure Vec3 where
  x : ℝ
  y : ℝ
  z : ℝ

instance : Add Vec3 := ⟨fun a b => ⟨a.x + b.x, a.y + b.y, a.z + b.z⟩⟩

instance : Sub Vec3 := ⟨fun a b => ⟨a.x - b.x, a.y - b.y, a.z - b.z⟩⟩

instance : Neg Vec3 := ⟨fun a => ⟨-a.x, -a.y, -a.z⟩⟩

instance : SMul ℝ Vec3 := ⟨fun r a => ⟨r * a.x, r * a.y, r * a.z⟩⟩

instance : Zero Vec3 := ⟨⟨0, 0, 0⟩⟩

@[simp] theorem Vec3.add_x (a b : Vec3) : (a + b).x = a.x + b.x := rfl

@[simp] theorem Vec3.add_y (a b : Vec3) : (a + b).y = a.y + b.y := rfl

@[simp] theorem Vec3.add_z (a b : Vec3) : (a + b).z = a.z + b.z := rfl

@[simp] theorem Vec3.sub_x (a b : Vec3) : (a - b).x = a.x - b.x := rfl

@[simp] theorem Vec3.sub_y (a b : Vec3) : (a - b).y = a.y - b.y := rfl

@[simp] theorem Vec3.sub_z (a b : Vec3) : (a - b).z = a.z - b.z := rfl

@[simp] theorem Vec3.neg_x (a : Vec3) : (-a).x = -a.x := rfl

@[simp] theorem Vec3.neg_y (a : Vec3) : (-a).y = -a.y := rfl

@[simp] theorem Vec3.neg_z (a : Vec3) : (-a).z = -a.z := rfl

@[simp] theorem Vec3.smul_x (r : ℝ) (a : Vec3) : (r • a).x = r * a.x := rfl

@[simp] theorem Vec3.smul_y (r : ℝ) (a : Vec3) : (r • a).y = r * a.y := rfl

@[simp] theorem Vec3.smul_z (r : ℝ) (a : Vec3) : (r • a).z = r * a.z := rfl

@[simp] theorem Vec3.zero_x : (0 : Vec3).x = 0 := rfl

@[simp] theorem Vec3.zero_y : (0 : Vec3).y = 0 := rfl

@[simp] theorem Vec3.zero_z : (0 : Vec3).z = 0 := rfl

/-- Dot product, modelling `nalgebra`'s `dot`. -/
def Vec3.dot (a b : Vec3) : ℝ := a.x * b.x + a.y * b.y + a.z * b.z

/-- Squared Euclidean norm, modelling `norm_squared`. -/
def Vec3.normSq (a : Vec3) : ℝ := a.dot a

/-- Euclidean norm, modelling `norm`. -/
def Vec3.norm (a : Vec3) : ℝ := Real.sqrt a.normSq

/-- Normalization `v / |v|`, modelling `nalgebra`'s `normalize`. -/
def Vec3.normalize (a : Vec3) : Vec3 := (1 / a.norm) • a

/-- Cross product, modelling `nalgebra`'s `cross`. -/
def Vec3.cross (a b : Vec3) : Vec3 :=
  ⟨a.y * b.z - a.z * b.y, a.z * b.x - a.x * b.z, a.x * b.y - a.y * b.x⟩

/-- Component-wise product, modelling `component_mul`. -/
def Vec3.compMul (a b : Vec3) : Vec3 := ⟨a.x * b.x, a.y * b.y, a.z * b.z⟩

/-- Model of `ray.rs`: `Ray { origin, direction }`. -/
structure Ray where
  origin : Vec3
  direction : Vec3

/-- `Ray::at`: `origin + direction * t`. -/
def Ray.at (r : Ray) (t : ℝ) : Vec3 := r.origin + t • r.direction

/-- Model of `geometry.rs`: `Sphere { center, radius }`. -/
structure Sphere where
  center : Vec3
  radius : ℝ

/-- `Sphere::normal`: `(point - center).normalize()`. -/
def Sphere.normal (s : Sphere) (p : Vec3) : Vec3 := (p - s.center).normalize

/-- Membership in a Rust `Range<f64>` `lo..hi`: `lo <= t && t < hi`.
The upper bound lives in `WithTop ℝ` so that `f64::INFINITY` is expressible. -/
def rangeContains (lo : ℝ) (hi : WithTop ℝ) (t : ℝ) : Prop :=
  lo ≤ t ∧ (t : WithTop ℝ) < hi

instance rangeContainsDec (lo : ℝ) (hi : WithTop ℝ) (t : ℝ) :
    Decidable (rangeContains lo hi t) :=
  inferInstanceAs (Decidable (_ ∧ _))

/-- `Sphere::intersect` from `geometry.rs`: solve the quadratic
`a t^2 + 2 b t + c = 0`; if the discriminant is strictly positive, return the
first of the two roots `(-b - sqrt disc)/a`, `(-b + sqrt disc)/a` that the
range contains, else `None`. -/
def Sphere.intersect (s : Sphere) (r : Ray) (lo : ℝ) (hi : WithTop ℝ) : Option ℝ :=
  let v := r.origin - s.center
  let a := r.direction.normSq
  let b := r.direction.dot v
  let c := v.normSq - s.radius * s.radius
  let disc := b * b - a * c
  if 0 < disc then
    let d := Real.sqrt disc
    List.find? (fun t => decide (rangeContains lo hi t)) [(-b - d) / a, (-b + d) / a]
  else none

/-- Model of `material.rs`: the three material variants. -/
inductive Material where
  | lambertian (color : Vec3)
  | metal (color : Vec3) (fuzz : ℝ)
  | dielectric (index_refraction : ℝ)

/-- A scene object is a geometry paired with a material, modelling
`impl Object for (G, M)` in `object.rs`; `Sphere` is the only geometry. -/
def Obj := Sphere × Material

/-- `reflect` from `material.rs`: `v - 2 (v . n) n`. -/
def reflect (v n : Vec3) : Vec3 := v - (2 * v.dot n) • n

/-- `reflectance` from `material.rs` (Schlick approximation): with
`r0 = (1 - eta)/(1 + eta)` and `r1 = r0 * r0`, the value
`r1 + (1 - r1) (1 - c)^5`. -/
def reflectance (c eta : ℝ) : ℝ :=
  let r0 := (1 - eta) / (1 + eta)
  let r1 := r0 * r0
  r1 + (1 - r1) * (1 - c) ^ 5

/-- The cosine term `c = -(v . n).min(1.0)` computed in `refract_schlick`. -/
def cosIncidence (v n : Vec3) : ℝ := -(min (v.dot n) 1)

/-- The sine term `s = (1 - c * c).sqrt()` computed in `refract_schlick`. -/
def sinIncidence (v n : Vec3) : ℝ :=
  Real.sqrt (1 - cosIncidence v n * cosIncidence v n)

/-- `refract_schlick` from `material.rs`; the uniform draw `gen()` from the
thread-local generator is passed explicitly as `u`. -/
def refract_schlick (v n : Vec3) (eta u : ℝ) : Vec3 :=
  if eta * sinIncidence v n > 1 ∨ reflectance (cosIncidence v n) eta > u then
    reflect v n
  else
    let orthogonal := eta • (v + cosIncidence v n • n)
    let parallel := (-Real.sqrt |1 - orthogonal.normSq|) • n
    orthogonal + parallel

/-- The refraction ratio chosen in `Dielectric::scatter`:
`if front { 1.0 / index } else { index }`. -/
def dielectricRatio (front : Bool) (idx : ℝ) : ℝ := if front then 1 / idx else idx

/-- The value cached by `Intersection::normal_front` in `object.rs`: the
geometric normal at the hit point, oriented against the ray, paired with the
front-face flag `direction . n < 0`. -/
def normalFrontOf (s : Sphere) (r : Ray) (t : ℝ) : Vec3 × Bool :=
  let n := s.normal (r.at t)
  let front := decide (r.direction.dot n < 0)
  (if front then n else -n, front)

/-- One material scatter, modelling `Material::scatter` for the object's
material; the random unit-sphere sample and the uniform draw consumed from the
thread-local generator are passed explicitly as `rv` and `u`. -/
def scatterObj (o : Obj) (r : Ray) (t : ℝ) (rv : Vec3) (u : ℝ) : Ray × Vec3 :=
  let p := r.at t
  let nf := normalFrontOf o.1 r t
  match o.2 with
  | .lambertian color => (Ray.mk p (nf.1 + rv), color)
  | .metal color fuzz => (Ray.mk p (reflect r.direction nf.1 + fuzz • rv), color)
  | .dielectric idx =>
      (Ray.mk p (refract_schlick r.direction nf.1 (dielectricRatio nf.2 idx) u),
        Vec3.mk 1 1 1)

/-- One step of Rust's `Iterator::min_by` fold on intersections keyed by `t`
(`cmp::min_by` keeps the accumulator unless the new element is strictly
smaller). Elements carry their scene index and object. -/
def minStep (m q : ℕ × Obj × ℝ) : ℕ × Obj × ℝ := if q.2.2 < m.2.2 then q else m

/-- Rust's `Iterator::min_by` keyed by hit distance: fold `minStep` over the
tail starting from the first element; `None` on an empty iterator. -/
def rustMinBy : List (ℕ × Obj × ℝ) → Option (ℕ × Obj × ℝ)
  | [] => none
  | p :: l => some (l.foldl minStep p)

/-- The intersections produced by
`objects.iter().filter_map(|o| o.intersect(ray, 0.0..f64::INFINITY))` in
`ray_color`, each tagged with its object's position in scene order. -/
def hitCandidatesFrom (r : Ray) : ℕ → List Obj → List (ℕ × Obj × ℝ)
  | _, [] => []
  | i, o :: os =>
    match Sphere.intersect o.1 r 0 ⊤ with
    | some t => (i, o, t) :: hitCandidatesFrom r (i + 1) os
    | none => hitCandidatesFrom r (i + 1) os

/-- All hit candidates of a scene for a ray, indexed from zero. -/
def hitCandidates (objs : List Obj) (r : Ray) : List (ℕ × Obj × ℝ) :=
  hitCandidatesFrom r 0 objs

/-- The minimum-`t` selection in `ray_color`: `filter_map` then `min_by`. -/
def selectHit (objs : List Obj) (r : Ray) : Option (ℕ × Obj × ℝ) :=
  rustMinBy (hitCandidates objs r)

/-- The background gradient computed on a total miss in `ray_color`. -/
def background (r : Ray) : Vec3 :=
  let t := 0.5 * (r.direction.y + 1)
  Vec3.mk (1 - t) (1 - t) (1 - t) + t • Vec3.mk 0.5 0.7 1.0

/-- The recursive integrator `ray_color` from `lib.rs`. The stream `rng`
provides, per recursion level, the unit-sphere sample and uniform draw a
scatter may consume from the thread-local generator. -/
def ray_color (objs : List Obj) : Ray → ℕ → (ℕ → Vec3 × ℝ) → Vec3
  | _, 0, _ => 0
  | r, d + 1, rng =>
    match selectHit objs r with
    | some (_, o, t) =>
      let sc := scatterObj o r t (rng (d + 1)).1 (rng (d + 1)).2
      (ray_color objs sc.1 d rng).compMul sc.2
    | none => background r

/-- Model of `camera.rs`: the fields of `Camera`. -/
structure Camera where
  horizontal : Vec3
  vertical : Vec3
  origin : Vec3
  direction : Vec3
  right : Vec3
  up : Vec3
  lens_radius : ℝ

/-- `Camera::look_at` from `camera.rs`. -/
def Camera.look_at (origin tgt up : Vec3)
    (fov aspect aperture focus_distance : ℝ) : Camera :=
  let viewport_height := 2 * Real.tan (fov / 2)
  let focus_plane_height := viewport_height * focus_distance
  let focus_plane_width := focus_plane_height * aspect
  let front := (tgt - origin).normalize
  let right := (front.cross up).normalize
  let up2 := right.cross front
  { horizontal := focus_plane_width • right
    vertical := focus_plane_height • up2
    origin := origin
    direction := focus_distance • front
    right := right
    up := up2
    lens_radius := aperture / 2 }

/-- `Camera::ray_at` from `camera.rs`; the unit-disc sample drawn from the
thread-local generator is passed explicitly as `(dx, dy)`. -/
def Camera.ray_at (c : Camera) (u v dx dy : ℝ) : Ray :=
  let offset := c.lens_radius • (dx • c.right + dy • c.up)
  let dir := c.direction + (u - 0.5) • c.horizontal + (v - 0.5) • c.vertical
  Ray.mk (c.origin + offset) ((dir - offset).normalize)

/-- Truncation toward zero, modelling Rust's float-to-integer `as` cast
before saturation. -/
def rtrunc (y : ℝ) : ℤ := if y < 0 then -⌊-y⌋ else ⌊y⌋

/-- The per-channel quantization `(x * 255.0) as u8` performed by
`write_to_file` (Rust float `as u8` truncates and saturates to `[0, 255]`). -/
def writeChannel (c : ℝ) : ℤ := max 0 (min 255 (rtrunc (c * 255)))

/-- The per-channel decoding `parse::<u32>() as f64 / 255.0` performed by
`read_from_file`. -/
def readChannel (k : ℤ) : ℝ := (k : ℝ) / 255

/-- Quantize one pixel, as `write_to_file` does per buffer element. -/
def writePixel (p : Vec3) : ℤ × ℤ × ℤ :=
  (writeChannel p.x, writeChannel p.y, writeChannel p.z)

/-- Decode one pixel line, as `read_from_file` does. -/
def readPixel (q : ℤ × ℤ × ℤ) : Vec3 :=
  Vec3.mk (readChannel q.1) (readChannel q.2.1) (readChannel q.2.2)

/-- The buffer transform of `write_to_file`: quantize every pixel in order. -/
def writeBuffer (buf : List Vec3) : List (ℤ × ℤ × ℤ) := buf.map writePixel

/-- The buffer transform of `read_from_file`: decode every pixel in order. -/
def readBuffer (qs : List (ℤ × ℤ × ℤ)) : List Vec3 := qs.map readPixel

/-- A channel value that is an exact multiple of `1/255` inside `[0, 1]`. -/
def quantizedChannel (c : ℝ) : Prop := ∃ k : ℕ, k ≤ 255 ∧ c = (k : ℝ) / 255

/-- Model of `Intersection` from `object.rs`, with its two `LazyCell` caches
made explicit, plus counters recording how many times each cached value has
actually been computed. -/
structure Intersection where
  t : ℝ
  ray : Ray
  object : Obj
  cachePoint : Option Vec3
  cacheNF : Option (Vec3 × Bool)
  pointComputes : ℕ
  nfComputes : ℕ

/-- A fresh intersection as built by `Object::intersect`: both caches empty. -/
def mkIntersection (t : ℝ) (r : Ray) (o : Obj) : Intersection :=
  ⟨t, r, o, none, none, 0, 0⟩

/-- `Intersection::point`: `borrow_with(|| ray.at(t))` — return the cached
point, or compute, store and return it. -/
def callPoint (i : Intersection) : Vec3 × Intersection :=
  match i.cachePoint with
  | some p => (p, i)
  | none =>
    let p := i.ray.at i.t
    (p, { i with cachePoint := some p, pointComputes := i.pointComputes + 1 })

/-- `Intersection::normal_front`: `borrow_with` over the second cache; the
closure reads `self.point()` (possibly filling the point cache) and computes
the oriented normal and front-face flag. -/
def callNormalFront (i : Intersection) : (Vec3 × Bool) × Intersection :=
  match i.cacheNF with
  | some nf => (nf, i)
  | none =>
    let pi := callPoint i
    let n := pi.2.object.1.normal pi.1
    let front := decide (pi.2.ray.direction.dot n < 0)
    let nf := (if front then n else -n, front)
    (nf, { pi.2 with cacheNF := some nf, nfComputes := pi.2.nfComputes + 1 })

/-- The three public accessors of `Intersection` that touch the caches. -/
inductive CacheCall where
  | pointCall
  | normalCall
  | frontCall

/-- State change performed by one accessor call (`normal()` and `front()`
both go through `normal_front`). -/
def applyCall : CacheCall → Intersection → Intersection
  | .pointCall, i => (callPoint i).2
  | .normalCall, i => (callNormalFront i).2
  | .frontCall, i => (callNormalFront i).2

/-- Run a sequence of accessor calls against an intersection. -/
def execCalls : List CacheCall → Intersection → Intersection
  | [], i => i
  | c :: l, i => execCalls l (applyCall c i)

theorem Vec3.dot_comm (a b : Vec3) : a.dot b = b.dot a := by
  simp only [Vec3.dot]; ring

theorem Vec3.dot_neg_right (a b : Vec3) : a.dot (-b) = -(a.dot b) := by
  simp only [Vec3.dot, Vec3.neg_x, Vec3.neg_y, Vec3.neg_z]; ring

theorem Vec3.normSq_nonneg (a : Vec3) : 0 ≤ a.normSq := by
  simp only [Vec3.normSq, Vec3.dot]
  nlinarith [sq_nonneg a.x, sq_nonneg a.y, sq_nonneg a.z]

theorem Vec3.normSq_eq_zero_iff (a : Vec3) : a.normSq = 0 ↔ a = 0 := by
  constructor
  · intro h
    simp only [Vec3.normSq, Vec3.dot] at h
    have hx : a.x = 0 := by nlinarith [sq_nonneg a.x, sq_nonneg a.y, sq_nonneg a.z]
    have hy : a.y = 0 := by nlinarith [sq_nonneg a.x, sq_nonneg a.y, sq_nonneg a.z]
    have hz : a.z = 0 := by nlinarith [sq_nonneg a.x, sq_nonneg a.y, sq_nonneg a.z]
    ext
    · rw [hx]; exact Vec3.zero_x.symm
    · rw [hy]; exact Vec3.zero_y.symm
    · rw [hz]; exact Vec3.zero_z.symm
  · rintro rfl
    simp [Vec3.normSq, Vec3.dot]

theorem Vec3.norm_eq_one_of_normSq (a : Vec3) (h : a.normSq = 1) : a.norm = 1 := by
  rw [Vec3.norm, h, Real.sqrt_one]

theorem Vec3.normSq_smul (r : ℝ) (a : Vec3) : (r • a).normSq = r ^ 2 * a.normSq := by
  simp only [Vec3.normSq, Vec3.dot, Vec3.smul_x, Vec3.smul_y, Vec3.smul_z]; ring

theorem Vec3.normSq_normalize (a : Vec3) (h : a.normSq ≠ 0) :
    a.normalize.normSq = 1 := by
  have hpos : 0 < a.normSq := lt_of_le_of_ne a.normSq_nonneg (Ne.symm h)
  have hs : Real.sqrt a.normSq ^ 2 = a.normSq := Real.sq_sqrt a.normSq_nonneg
  have hsne : Real.sqrt a.normSq ≠ 0 := by
    intro h0
    rw [h0] at hs
    simp at hs
    exact h hs.symm
  rw [Vec3.normalize, Vec3.normSq_smul, Vec3.norm]
  rw [div_pow, one_pow, hs]
  field_simp

/-- Claim C8: for the empty scene and any positive depth, the integrator
returns exactly the background gradient `(1-t)*(1,1,1) + t*(0.5,0.7,1.0)`
with `t = 0.5 * (direction.y + 1)`. -/
theorem ray_color_empty_background (r : Ray) (depth : ℕ) (rng : ℕ → Vec3 × ℝ)
    (h : 0 < depth) :
    ray_color [] r depth rng =
      Vec3.mk (1 - 0.5 * (r.direction.y + 1)) (1 - 0.5 * (r.direction.y + 1))
          (1 - 0.5 * (r.direction.y + 1)) +
        (0.5 * (r.direction.y + 1)) • Vec3.mk 0.5 0.7 1.0 := by
  obtain ⟨d, rfl⟩ : ∃ d, depth = d + 1 :=
    ⟨depth - 1, (Nat.succ_pred_eq_of_pos h).symm⟩
  simp [ray_color, selectHit, hitCandidates, hitCandidatesFrom, rustMinBy,
    background]

theorem ray_color_empty_background_witness :
    0 < 1 ∧
      ray_color [] (Ray.mk (Vec3.mk 0 0 0) (Vec3.mk 0 1 0)) 1 (fun _ => (0, 0)) =
        Vec3.mk (1 - 0.5 * ((Vec3.mk 0 1 0).y + 1)) (1 - 0.5 * ((Vec3.mk 0 1 0).y + 1))
            (1 - 0.5 * ((Vec3.mk 0 1 0).y + 1)) +
          (0.5 * ((Vec3.mk 0 1 0).y + 1)) • Vec3.mk 0.5 0.7 1.0 :=
  ⟨by norm_num,
    ray_color_empty_background (Ray.mk (Vec3.mk 0 0 0) (Vec3.mk 0 1 0)) 1
      (fun _ => (0, 0)) (by norm_num)⟩

/-- Claim C10: the oriented normal produced by `Intersection::normal_front`
never points along the incoming ray (`direction . normal <= 0`); the
front-face flag holds exactly when the ray direction has strictly negative dot
product with the geometric outward normal, and on a back face the geometric
normal is negated. -/
theorem oriented_normal_halfspace (s : Sphere) (r : Ray) (t : ℝ) :
    r.direction.dot (normalFrontOf s r t).1 ≤ 0 ∧
      ((normalFrontOf s r t).2 = true ↔ r.direction.dot (s.normal (r.at t)) < 0) ∧
      ((normalFrontOf s r t).2 = false →
        (normalFrontOf s r t).1 = -(s.normal (r.at t))) := by
  by_cases h : r.direction.dot (s.normal (r.at t)) < 0
  · simp [normalFrontOf, h, le_of_lt h]
  · simp [normalFrontOf, h, Vec3.dot_neg_right]
    exact not_lt.mp h

theorem oriented_normal_halfspace_witness :
    (Ray.mk (Vec3.mk 0 0 0) (Vec3.mk 0 0 1)).direction.dot
        (normalFrontOf (Sphere.mk (Vec3.mk 0 0 3) 1) (Ray.mk (Vec3.mk 0 0 0) (Vec3.mk 0 0 1)) 2).1 ≤ 0 ∧
      ((normalFrontOf (Sphere.mk (Vec3.mk 0 0 3) 1) (Ray.mk (Vec3.mk 0 0 0) (Vec3.mk 0 0 1)) 2).2 = true ↔
        (Ray.mk (Vec3.mk 0 0 0) (Vec3.mk 0 0 1)).direction.dot
          ((Sphere.mk (Vec3.mk 0 0 3) 1).normal ((Ray.mk (Vec3.mk 0 0 0) (Vec3.mk 0 0 1)).at 2)) < 0) ∧
      ((normalFrontOf (Sphere.mk (Vec3.mk 0 0 3) 1) (Ray.mk (Vec3.mk 0 0 0) (Vec3.mk 0 0 1)) 2).2 = false →
        (normalFrontOf (Sphere.mk (Vec3.mk 0 0 3) 1) (Ray.mk (Vec3.mk 0 0 0) (Vec3.mk 0 0 1)) 2).1 =
          -((Sphere.mk (Vec3.mk 0 0 3) 1).normal ((Ray.mk (Vec3.mk 0 0 0) (Vec3.mk 0 0 1)).at 2))) :=
  oriented_normal_halfspace (Sphere.mk (Vec3.mk 0 0 3) 1)
    (Ray.mk (Vec3.mk 0 0 0) (Vec3.mk 0 0 1)) 2

theorem find?_pair (p : ℝ → Prop) [DecidablePred p] (a b : ℝ) :
    List.find? (fun t => decide (p t)) [a, b] =
      if p a then some a else if p b then some b else none := by
  by_cases ha : p a
  · simp [List.find?, ha]
  · by_cases hb : p b
    · simp [List.find?, ha, hb]
    · simp [List.find?, ha, hb]

theorem sphere_intersect_ite (s : Sphere) (r : Ray) (lo : ℝ) (hi : WithTop ℝ) :
    s.intersect r lo hi =
      if 0 < r.direction.dot (r.origin - s.center) * r.direction.dot (r.origin - s.center) -
          r.direction.normSq * ((r.origin - s.center).normSq - s.radius * s.radius) then
        if rangeContains lo hi
            ((-r.direction.dot (r.origin - s.center) -
                Real.sqrt (r.direction.dot (r.origin - s.center) * r.direction.dot (r.origin - s.center) -
                  r.direction.normSq * ((r.origin - s.center).normSq - s.radius * s.radius))) /
              r.direction.normSq) then
          some ((-r.direction.dot (r.origin - s.center) -
              Real.sqrt (r.direction.dot (r.origin - s.center) * r.direction.dot (r.origin - s.center) -
                r.direction.normSq * ((r.origin - s.center).normSq - s.radius * s.radius))) /
            r.direction.normSq)
        else if rangeContains lo hi
            ((-r.direction.dot (r.origin - s.center) +
                Real.sqrt (r.direction.dot (r.origin - s.center) * r.direction.dot (r.origin - s.center) -
                  r.direction.normSq * ((r.origin - s.center).normSq - s.radius * s.radius))) /
              r.direction.normSq) then
          some ((-r.direction.dot (r.origin - s.center) +
              Real.sqrt (r.direction.dot (r.origin - s.center) * r.direction.dot (r.origin - s.center) -
                r.direction.normSq * ((r.origin - s.center).normSq - s.radius * s.radius))) /
            r.direction.normSq)
        else none
      else none := by
  simp only [Sphere.intersect]
  split
  · exact find?_pair (rangeContains lo hi) _ _
  · rfl

theorem Vec3.zero_dot (a : Vec3) : (0 : Vec3).dot a = 0 := by
  simp [Vec3.dot]

theorem quad_root_neg (a b c d : ℝ) (ha : a ≠ 0) (hd2 : d ^ 2 = b * b - a * c) :
    a * ((-b - d) / a * ((-b - d) / a)) + 2 * b * ((-b - d) / a) + c = 0 := by
  field_simp
  linear_combination a ^ 2 * hd2

theorem quad_root_pos (a b c d : ℝ) (ha : a ≠ 0) (hd2 : d ^ 2 = b * b - a * c) :
    a * ((-b + d) / a * ((-b + d) / a)) + 2 * b * ((-b + d) / a) + c = 0 := by
  field_simp
  linear_combination a ^ 2 * hd2

theorem intersect_mem_quad (s : Sphere) (r : Ray) (lo : ℝ) (hi : WithTop ℝ) (t : ℝ)
    (h : s.intersect r lo hi = some t) :
    rangeContains lo hi t ∧
      r.direction.normSq * (t * t) + 2 * r.direction.dot (r.origin - s.center) * t +
        ((r.origin - s.center).normSq - s.radius * s.radius) = 0 := by
  rw [sphere_intersect_ite] at h
  set a := r.direction.normSq with ha2
  set b := r.direction.dot (r.origin - s.center) with hb
  set c := (r.origin - s.center).normSq - s.radius * s.radius with hc
  by_cases hd : 0 < b * b - a * c
  · rw [if_pos hd] at h
    have hane : a ≠ 0 := by
      intro a0
      have h0 : r.direction.normSq = 0 := by rw [← ha2]; exact a0
      have hdir : r.direction = 0 := (Vec3.normSq_eq_zero_iff _).mp h0
      have hb0 : b = 0 := by rw [hb, hdir, Vec3.zero_dot]
      rw [a0, hb0] at hd
      norm_num at hd
    have hd2 : Real.sqrt (b * b - a * c) ^ 2 = b * b - a * c :=
      Real.sq_sqrt (le_of_lt hd)
    by_cases h0 : rangeContains lo hi ((-b - Real.sqrt (b * b - a * c)) / a)
    · rw [if_pos h0] at h
      have ht := Option.some.inj h
      subst ht
      exact ⟨h0, quad_root_neg a b c _ hane hd2⟩
    · rw [if_neg h0] at h
      by_cases h1 : rangeContains lo hi ((-b + Real.sqrt (b * b - a * c)) / a)
      · rw [if_pos h1] at h
        have ht := Option.some.inj h
        subst ht
        exact ⟨h1, quad_root_pos a b c _ hane hd2⟩
      · rw [if_neg h1] at h
        exact absurd h (by simp)
  · rw [if_neg hd] at h
    exact absurd h (by simp)

theorem normSq_at_sub (s : Sphere) (r : Ray) (t : ℝ) :
    (r.at t - s.center).normSq =
      r.direction.normSq * (t * t) + 2 * r.direction.dot (r.origin - s.center) * t +
        (r.origin - s.center).normSq := by
  simp only [Ray.at, Vec3.normSq, Vec3.dot, Vec3.add_x, Vec3.add_y, Vec3.add_z,
    Vec3.sub_x, Vec3.sub_y, Vec3.sub_z, Vec3.smul_x, Vec3.smul_y, Vec3.smul_z]
  ring

/-- Claim C4: `Sphere::intersect` returns the smaller root
`(-b - sqrt disc)/a` when the discriminant is strictly positive and that root
lies in the range, else the larger root `(-b + sqrt disc)/a` when it lies in
the range, else no hit; and a discriminant of exactly zero yields no hit. -/
theorem sphere_intersect_root_selection (s : Sphere) (r : Ray) (lo : ℝ) (hi : WithTop ℝ) :
    (s.intersect r lo hi =
      if 0 < r.direction.dot (r.origin - s.center) * r.direction.dot (r.origin - s.center) -
          r.direction.normSq * ((r.origin - s.center).normSq - s.radius * s.radius) then
        if rangeContains lo hi
            ((-r.direction.dot (r.origin - s.center) -
                Real.sqrt (r.direction.dot (r.origin - s.center) * r.direction.dot (r.origin - s.center) -
                  r.direction.normSq * ((r.origin - s.center).normSq - s.radius * s.radius))) /
              r.direction.normSq) then
          some ((-r.direction.dot (r.origin - s.center) -
              Real.sqrt (r.direction.dot (r.origin - s.center) * r.direction.dot (r.origin - s.center) -
                r.direction.normSq * ((r.origin - s.center).normSq - s.radius * s.radius))) /
            r.direction.normSq)
        else if rangeContains lo hi
            ((-r.direction.dot (r.origin - s.center) +
                Real.sqrt (r.direction.dot (r.origin - s.center) * r.direction.dot (r.origin - s.center) -
                  r.direction.normSq * ((r.origin - s.center).normSq - s.radius * s.radius))) /
              r.direction.normSq) then
          some ((-r.direction.dot (r.origin - s.center) +
              Real.sqrt (r.direction.dot (r.origin - s.center) * r.direction.dot (r.origin - s.center) -
                r.direction.normSq * ((r.origin - s.center).normSq - s.radius * s.radius))) /
            r.direction.normSq)
        else none
      else none) ∧
    (r.direction.dot (r.origin - s.center) * r.direction.dot (r.origin - s.center) -
        r.direction.normSq * ((r.origin - s.center).normSq - s.radius * s.radius) = 0 →
      s.intersect r lo hi = none) := by
  refine ⟨sphere_intersect_ite s r lo hi, fun h => ?_⟩
  rw [sphere_intersect_ite, h]
  norm_num

theorem sphere_intersect_root_selection_witness :
    ((Ray.mk (Vec3.mk 1 0 (-2)) (Vec3.mk 0 0 1)).direction.dot
        ((Ray.mk (Vec3.mk 1 0 (-2)) (Vec3.mk 0 0 1)).origin - (Sphere.mk (Vec3.mk 0 0 0) 1).center) *
        (Ray.mk (Vec3.mk 1 0 (-2)) (Vec3.mk 0 0 1)).direction.dot
          ((Ray.mk (Vec3.mk 1 0 (-2)) (Vec3.mk 0 0 1)).origin - (Sphere.mk (Vec3.mk 0 0 0) 1).center) -
        (Ray.mk (Vec3.mk 1 0 (-2)) (Vec3.mk 0 0 1)).direction.normSq *
          (((Ray.mk (Vec3.mk 1 0 (-2)) (Vec3.mk 0 0 1)).origin - (Sphere.mk (Vec3.mk 0 0 0) 1).center).normSq -
            (Sphere.mk (Vec3.mk 0 0 0) 1).radius * (Sphere.mk (Vec3.mk 0 0 0) 1).radius) = 0) ∧
      (Sphere.mk (Vec3.mk 0 0 0) 1).intersect (Ray.mk (Vec3.mk 1 0 (-2)) (Vec3.mk 0 0 1)) 0 ⊤ = none := by
  have hdisc : (Ray.mk (Vec3.mk 1 0 (-2)) (Vec3.mk 0 0 1)).direction.dot
        ((Ray.mk (Vec3.mk 1 0 (-2)) (Vec3.mk 0 0 1)).origin - (Sphere.mk (Vec3.mk 0 0 0) 1).center) *
        (Ray.mk (Vec3.mk 1 0 (-2)) (Vec3.mk 0 0 1)).direction.dot
          ((Ray.mk (Vec3.mk 1 0 (-2)) (Vec3.mk 0 0 1)).origin - (Sphere.mk (Vec3.mk 0 0 0) 1).center) -
        (Ray.mk (Vec3.mk 1 0 (-2)) (Vec3.mk 0 0 1)).direction.normSq *
          (((Ray.mk (Vec3.mk 1 0 (-2)) (Vec3.mk 0 0 1)).origin - (Sphere.mk (Vec3.mk 0 0 0) 1).center).normSq -
            (Sphere.mk (Vec3.mk 0 0 0) 1).radius * (Sphere.mk (Vec3.mk 0 0 0) 1).radius) = 0 := by
    norm_num [Vec3.dot, Vec3.normSq]
  exact ⟨hdisc,
    (sphere_intersect_root_selection (Sphere.mk (Vec3.mk 0 0 0) 1)
      (Ray.mk (Vec3.mk 1 0 (-2)) (Vec3.mk 0 0 1)) 0 ⊤).2 hdisc⟩

/-- Claim C5: whenever `Sphere::intersect` returns a hit distance, that
distance lies in the queried range and the corresponding ray point lies
exactly on the sphere's surface (real arithmetic). -/
theorem sphere_intersect_on_surface (s : Sphere) (r : Ray) (lo : ℝ) (hi : WithTop ℝ)
    (t : ℝ) (hrad : 0 ≤ s.radius) (h : s.intersect r lo hi = some t) :
    rangeContains lo hi t ∧ (r.at t - s.center).norm = s.radius := by
  obtain ⟨hmem, hquad⟩ := intersect_mem_quad s r lo hi t h
  refine ⟨hmem, ?_⟩
  have hnsq : (r.at t - s.center).normSq = s.radius * s.radius := by
    rw [normSq_at_sub]
    linarith [hquad]
  rw [Vec3.norm, hnsq, Real.sqrt_mul_self hrad]

theorem sphere_intersect_on_surface_witness :
    (0 : ℝ) ≤ (Sphere.mk (Vec3.mk 0 0 0) 1).radius ∧
      (Sphere.mk (Vec3.mk 0 0 0) 1).intersect (Ray.mk (Vec3.mk 0 0 (-2)) (Vec3.mk 0 0 1)) 0 ⊤ = some 1 ∧
      (rangeContains 0 ⊤ 1 ∧
        ((Ray.mk (Vec3.mk 0 0 (-2)) (Vec3.mk 0 0 1)).at 1 - (Sphere.mk (Vec3.mk 0 0 0) 1).center).norm =
          (Sphere.mk (Vec3.mk 0 0 0) 1).radius) := by
  have hrad : (0 : ℝ) ≤ (Sphere.mk (Vec3.mk 0 0 0) 1).radius := by norm_num
  have hsome : (Sphere.mk (Vec3.mk 0 0 0) 1).intersect
      (Ray.mk (Vec3.mk 0 0 (-2)) (Vec3.mk 0 0 1)) 0 ⊤ = some 1 := by
    rw [sphere_intersect_ite]
    norm_num [Vec3.dot, Vec3.normSq, rangeContains, Real.sqrt_one]
  exact ⟨hrad, hsome,
    sphere_intersect_on_surface (Sphere.mk (Vec3.mk 0 0 0) 1)
      (Ray.mk (Vec3.mk 0 0 (-2)) (Vec3.mk 0 0 1)) 0 ⊤ 1 hrad hsome⟩

/-- Claim C3 counterexample: the integrator's range `0.0..f64::INFINITY` is
half-open, not open: a candidate hit with `t = 0` IS accepted. For a unit
sphere around the origin and a ray starting on its surface pointing outward,
`intersect` over that range returns `some 0`. -/
theorem intersect_accepts_zero_t :
    (Sphere.mk (Vec3.mk 0 0 0) 1).intersect (Ray.mk (Vec3.mk 1 0 0) (Vec3.mk 1 0 0)) 0 ⊤ = some 0 := by
  rw [sphere_intersect_ite]
  norm_num [Vec3.dot, Vec3.normSq, rangeContains, Real.sqrt_one]

theorem foldl_minStep_spec (l : List (ℕ × Obj × ℝ)) : ∀ acc : ℕ × Obj × ℝ,
    (∀ b ∈ l, acc.1 < b.1) → l.Pairwise (fun p q => p.1 < q.1) →
    (l.foldl minStep acc = acc ∨ l.foldl minStep acc ∈ l) ∧
      (l.foldl minStep acc).2.2 ≤ acc.2.2 ∧
      (∀ b ∈ l, (l.foldl minStep acc).2.2 ≤ b.2.2) ∧
      (acc.2.2 = (l.foldl minStep acc).2.2 → l.foldl minStep acc = acc) ∧
      (∀ b ∈ l, b.2.2 = (l.foldl minStep acc).2.2 → (l.foldl minStep acc).1 ≤ b.1) := by
  induction l with
  | nil => intro acc _ _; simp
  | cons p ps ih =>
    intro acc hlt hpw
    have hplt : ∀ b ∈ ps, p.1 < b.1 := (List.pairwise_cons.mp hpw).1
    have hpw' : ps.Pairwise (fun a b => a.1 < b.1) := (List.pairwise_cons.mp hpw).2
    simp only [List.foldl_cons]
    by_cases hc : p.2.2 < acc.2.2
    · rw [show minStep acc p = p from by simp [minStep, hc]]
      obtain ⟨hmem, hle, hall, htie, hidx⟩ := ih p hplt hpw'
      refine ⟨?_, ?_, ?_, ?_, ?_⟩
      · rcases hmem with h | h
        · right; rw [h]; exact List.mem_cons_self p ps
        · exact Or.inr (List.mem_cons_of_mem p h)
      · exact le_trans hle (le_of_lt hc)
      · intro b hb
        rcases List.mem_cons.mp hb with h | h
        · exact h ▸ hle
        · exact hall b h
      · intro he
        exact absurd he (by have := lt_of_le_of_lt hle hc; linarith)
      · intro b hb hbe
        rcases List.mem_cons.mp hb with h | h
        · have := htie (by rw [← h] at hbe ⊢; exact hbe)
          rw [this, h]
        · exact hidx b h hbe
    · rw [show minStep acc p = acc from by simp [minStep, hc]]
      have hlt' : ∀ b ∈ ps, acc.1 < b.1 := fun b hb => hlt b (List.mem_cons_of_mem p hb)
      obtain ⟨hmem, hle, hall, htie, hidx⟩ := ih acc hlt' hpw'
      have hacp : acc.2.2 ≤ p.2.2 := not_lt.mp hc
      refine ⟨?_, hle, ?_, htie, ?_⟩
      · rcases hmem with h | h
        · exact Or.inl h
        · exact Or.inr (List.mem_cons_of_mem p h)
      · intro b hb
        rcases List.mem_cons.mp hb with h | h
        · exact h ▸ le_trans hle hacp
        · exact hall b h
      · intro b hb hbe
        rcases List.mem_cons.mp hb with h | h
        · subst h
          have heq : acc.2.2 = (ps.foldl minStep acc).2.2 :=
            le_antisymm (by rw [← hbe]; exact hacp) hle
          rw [htie heq]
          exact le_of_lt (hlt b (List.mem_cons_self b ps))
        · exact hidx b h hbe

theorem hitCandidatesFrom_ge (r : Ray) : ∀ (os : List Obj) (i : ℕ),
    ∀ b ∈ hitCandidatesFrom r i os, i ≤ b.1 := by
  intro os
  induction os with
  | nil => intro i b hb; simp [hitCandidatesFrom] at hb
  | cons o os ih =>
    intro i b hb
    rcases hint : Sphere.intersect o.1 r 0 ⊤ with _ | t
    · rw [hitCandidatesFrom, hint] at hb
      exact le_trans (Nat.le_succ i) (ih (i + 1) b hb)
    · rw [hitCandidatesFrom, hint] at hb
      rcases List.mem_cons.mp hb with h | h
      · rw [h]
      · exact le_trans (Nat.le_succ i) (ih (i + 1) b h)

theorem hitCandidatesFrom_pairwise (r : Ray) : ∀ (os : List Obj) (i : ℕ),
    (hitCandidatesFrom r i os).Pairwise (fun p q => p.1 < q.1) := by
  intro os
  induction os with
  | nil => intro i; simp [hitCandidatesFrom]
  | cons o os ih =>
    intro i
    rcases hint : Sphere.intersect o.1 r 0 ⊤ with _ | t
    · rw [hitCandidatesFrom, hint]
      exact ih (i + 1)
    · rw [hitCandidatesFrom, hint]
      refine List.pairwise_cons.mpr ⟨fun b hb => ?_, ih (i + 1)⟩
      have := hitCandidatesFrom_ge r os (i + 1) b hb
      omega

theorem hitCandidatesFrom_intersect (r : Ray) : ∀ (os : List Obj) (i : ℕ),
    ∀ b ∈ hitCandidatesFrom r i os, Sphere.intersect b.2.1.1 r 0 ⊤ = some b.2.2 := by
  intro os
  induction os with
  | nil => intro i b hb; simp [hitCandidatesFrom] at hb
  | cons o os ih =>
    intro i b hb
    rcases hint : Sphere.intersect o.1 r 0 ⊤ with _ | t
    · rw [hitCandidatesFrom, hint] at hb
      exact ih (i + 1) b hb
    · rw [hitCandidatesFrom, hint] at hb
      rcases List.mem_cons.mp hb with h | h
      · rw [h]; exact hint
      · exact ih (i + 1) b h

theorem selectHit_spec (objs : List Obj) (r : Ray) (p : ℕ × Obj × ℝ)
    (h : selectHit objs r = some p) :
    p ∈ hitCandidates objs r ∧
      ∀ q ∈ hitCandidates objs r, p.2.2 ≤ q.2.2 ∧ (q.2.2 = p.2.2 → p.1 ≤ q.1) := by
  unfold selectHit at h
  rcases hc : hitCandidates objs r with _ | ⟨a, l⟩
  · rw [hc] at h; simp [rustMinBy] at h
  · rw [hc] at h
    simp only [rustMinBy] at h
    have hfold := Option.some.inj h
    have hpw : (a :: l).Pairwise (fun x y => x.1 < y.1) := by
      have := hitCandidatesFrom_pairwise r objs 0
      rwa [show hitCandidatesFrom r 0 objs = hitCandidates objs r from rfl, hc] at this
    obtain ⟨hmem, hle, hall, htie, hidx⟩ :=
      foldl_minStep_spec l a (List.pairwise_cons.mp hpw).1 (List.pairwise_cons.mp hpw).2
    rw [hfold] at hmem hle hall htie hidx
    constructor
    · rcases hmem with hm | hm
      · rw [hm]; exact List.mem_cons_self a l
      · exact List.mem_cons_of_mem a hm
    · intro q hq
      rcases List.mem_cons.mp hq with hm | hm
      · subst hm
        refine ⟨hle, fun he => ?_⟩
        have := htie he
        rw [this]
      · exact ⟨hall q hm, fun he => hidx q hm he⟩

/-- Claim C1: when the integrator's minimum-`t` selection returns a hit, its
distance is minimal among all candidates and, among candidates tied at that
distance, its object is the one earliest in scene order. -/
theorem integrator_tie_first (objs : List Obj) (r : Ray) (i : ℕ) (o : Obj) (t : ℝ)
    (h : selectHit objs r = some (i, o, t)) :
    (i, o, t) ∈ hitCandidates objs r ∧
      ∀ j o2 s2, (j, o2, s2) ∈ hitCandidates objs r → t ≤ s2 ∧ (s2 = t → i ≤ j) := by
  obtain ⟨hmem, hmin⟩ := selectHit_spec objs r (i, o, t) h
  exact ⟨hmem, fun j o2 s2 hq => hmin (j, o2, s2) hq⟩

/-- Claim C3 (amended): every hit distance selected by the integrator is
nonnegative (the queried range `0.0..f64::INFINITY` is half-open at zero). -/
theorem selectHit_nonneg (objs : List Obj) (r : Ray) (i : ℕ) (o : Obj) (t : ℝ)
    (h : selectHit objs r = some (i, o, t)) : 0 ≤ t := by
  obtain ⟨hmem, _⟩ := selectHit_spec objs r (i, o, t) h
  have hint := hitCandidatesFrom_intersect r objs 0 (i, o, t) hmem
  exact (intersect_mem_quad _ r 0 ⊤ t hint).1.1

/-- Sphere used by the concrete integrator examples. -/
def demoSphere : Sphere := Sphere.mk (Vec3.mk 0 0 3) 1

/-- Object used by the concrete integrator examples. -/
def demoObj : Obj := (demoSphere, Material.lambertian (Vec3.mk 0 0 0))

/-- Ray used by the concrete integrator examples. -/
def demoRay : Ray := Ray.mk (Vec3.mk 0 0 0) (Vec3.mk 0 0 1)

theorem demo_intersect : Sphere.intersect demoSphere demoRay 0 ⊤ = some 2 := by
  rw [sphere_intersect_ite]
  norm_num [demoSphere, demoRay, Vec3.dot, Vec3.normSq, rangeContains, Real.sqrt_one]

theorem integrator_tie_first_witness :
    selectHit [demoObj, demoObj] demoRay = some (0, demoObj, 2) ∧
      ((0, demoObj, 2) ∈ hitCandidates [demoObj, demoObj] demoRay ∧
        ∀ j o2 s2, (j, o2, s2) ∈ hitCandidates [demoObj, demoObj] demoRay →
          (2 : ℝ) ≤ s2 ∧ (s2 = 2 → 0 ≤ j)) := by
  have hsel : selectHit [demoObj, demoObj] demoRay = some (0, demoObj, 2) := by
    have hint : Sphere.intersect demoObj.1 demoRay 0 ⊤ = some 2 := demo_intersect
    simp [selectHit, hitCandidates, hitCandidatesFrom, hint, rustMinBy, minStep]
  exact ⟨hsel, integrator_tie_first [demoObj, demoObj] demoRay 0 demoObj 2 hsel⟩

theorem selectHit_nonneg_witness :
    selectHit [demoObj] demoRay = some (0, demoObj, 2) ∧ (0 : ℝ) ≤ 2 := by
  have hsel : selectHit [demoObj] demoRay = some (0, demoObj, 2) := by
    have hint : Sphere.intersect demoObj.1 demoRay 0 ⊤ = some 2 := demo_intersect
    simp [selectHit, hitCandidates, hitCandidatesFrom, hint, rustMinBy]
  exact ⟨hsel, selectHit_nonneg [demoObj] demoRay 0 demoObj 2 hsel⟩

/-- Claim C2 counterexample: for a dielectric with index 1.0 the Schlick
reflectance is NOT zero at every incidence angle. At the incidence
configuration `v = (1, -1/2, 0)`, `n = (0, 1, 0)` the cosine term is `1/2`,
the reflectance used to decide reflection is `1/32`, and with uniform draw `0`
the probabilistic-reflection branch IS taken (the result is the reflection of
`v` about `n`). -/
theorem dielectric_unit_index_counterexample :
    cosIncidence (Vec3.mk 1 (-(1 / 2)) 0) (Vec3.mk 0 1 0) = 1 / 2 ∧
      reflectance (1 / 2) 1 = 1 / 32 ∧ (1 / 32 : ℝ) ≠ 0 ∧
      refract_schlick (Vec3.mk 1 (-(1 / 2)) 0) (Vec3.mk 0 1 0) 1 0 =
        reflect (Vec3.mk 1 (-(1 / 2)) 0) (Vec3.mk 0 1 0) := by
  have hc : cosIncidence (Vec3.mk 1 (-(1 / 2)) 0) (Vec3.mk 0 1 0) = 1 / 2 := by
    norm_num [cosIncidence, Vec3.dot]
  have hr : reflectance (1 / 2) 1 = 1 / 32 := by norm_num [reflectance]
  refine ⟨hc, hr, by norm_num, ?_⟩
  unfold refract_schlick
  rw [if_pos (Or.inr (by rw [hc, hr]; norm_num))]

/-- Claim C2 (amended): for a dielectric with index 1.0 the refraction ratio
is 1 on both faces, the total-internal-reflection test `ratio * sin > 1` never
passes, and `r0 = 0` so the Schlick reflectance reduces to `(1 - cos)^5` —
which is nonzero away from normal incidence, so the probabilistic-reflection
branch can still be taken. -/
theorem dielectric_unit_index_amended :
    (∀ fr : Bool, dielectricRatio fr 1 = 1) ∧
      (∀ v n : Vec3, ¬(1 * sinIncidence v n > 1)) ∧
      (∀ c : ℝ, reflectance c 1 = (1 - c) ^ 5) := by
  refine ⟨fun fr => by cases fr <;> simp [dielectricRatio], fun v n => ?_,
    fun c => by norm_num [reflectance]⟩
  have hle : sinIncidence v n ≤ 1 := by
    rw [sinIncidence]
    have h1 : 1 - cosIncidence v n * cosIncidence v n ≤ 1 := by
      nlinarith [sq_nonneg (cosIncidence v n)]
    calc Real.sqrt (1 - cosIncidence v n * cosIncidence v n) ≤ Real.sqrt 1 :=
          Real.sqrt_le_sqrt h1
      _ = 1 := Real.sqrt_one
  rw [one_mul]
  exact not_lt.mpr hle

theorem dielectric_unit_index_amended_witness :
    dielectricRatio true 1 = 1 ∧
      ¬(1 * sinIncidence (Vec3.mk 1 0 0) (Vec3.mk 0 1 0) > 1) ∧
      reflectance 0 1 = (1 - 0) ^ 5 :=
  ⟨dielectric_unit_index_amended.1 true,
    dielectric_unit_index_amended.2.1 (Vec3.mk 1 0 0) (Vec3.mk 0 1 0),
    dielectric_unit_index_amended.2.2 0⟩

theorem writeChannel_eq_floor (c : ℝ) (h0 : 0 ≤ c) (h1 : c ≤ 1) :
    writeChannel c = ⌊c * 255⌋ := by
  unfold writeChannel rtrunc
  have hnn : ¬(c * 255 < 0) := not_lt.mpr (by positivity)
  rw [if_neg hnn]
  have hf0 : (0 : ℤ) ≤ ⌊c * 255⌋ := Int.floor_nonneg.mpr (by positivity)
  have hf255 : ⌊c * 255⌋ ≤ 255 := by
    have hle : c * 255 ≤ 255 := by nlinarith
    calc ⌊c * 255⌋ ≤ ⌊(255 : ℝ)⌋ := Int.floor_le_floor hle
      _ = 255 := by norm_num
  rw [min_eq_right hf255, max_eq_right hf0]

theorem roundtrip_quantized (c : ℝ) (h : quantizedChannel c) :
    readChannel (writeChannel c) = c := by
  obtain ⟨k, hk, rfl⟩ := h
  have h0 : 0 ≤ (k : ℝ) / 255 := by positivity
  have h1 : (k : ℝ) / 255 ≤ 1 := by
    rw [div_le_one (by norm_num)]
    exact_mod_cast hk
  rw [writeChannel_eq_floor _ h0 h1, readChannel]
  have he : (k : ℝ) / 255 * 255 = (k : ℝ) := by field_simp
  rw [he, Int.floor_natCast]
  norm_num

theorem roundtrip_approx (c : ℝ) (h0 : 0 ≤ c) (h1 : c ≤ 1) :
    |readChannel (writeChannel c) - c| ≤ 1 / 255 := by
  rw [writeChannel_eq_floor c h0 h1, readChannel, abs_le]
  have hfl : c * 255 - 1 < (⌊c * 255⌋ : ℝ) := Int.sub_one_lt_floor _
  have hfu : (⌊c * 255⌋ : ℝ) ≤ c * 255 := Int.floor_le _
  constructor <;> [linarith; linarith]

theorem codec_buffer_roundtrip (buf : List Vec3)
    (h : ∀ v ∈ buf, quantizedChannel v.x ∧ quantizedChannel v.y ∧ quantizedChannel v.z) :
    readBuffer (writeBuffer buf) = buf := by
  induction buf with
  | nil => rfl
  | cons v vs ih =>
    have hv := h v (List.mem_cons_self v vs)
    have hveq : readPixel (writePixel v) = v := by
      ext
      · exact roundtrip_quantized v.x hv.1
      · exact roundtrip_quantized v.y hv.2.1
      · exact roundtrip_quantized v.z hv.2.2
    have hrest : readBuffer (writeBuffer vs) = vs :=
      ih fun w hw => h w (List.mem_cons_of_mem v hw)
    simp only [writeBuffer, readBuffer, List.map_cons] at hrest ⊢
    rw [hveq, hrest]

/-- Claim C9: writing then reading a buffer whose channels are exact
multiples of 1/255 in [0, 1] is the identity; for arbitrary channels in
[0, 1] the per-channel round-trip error is at most 1/255; and a channel is
quantized by multiplying by 255 and truncating. -/
theorem codec_round_trip :
    (∀ buf : List Vec3,
        (∀ v ∈ buf, quantizedChannel v.x ∧ quantizedChannel v.y ∧ quantizedChannel v.z) →
        readBuffer (writeBuffer buf) = buf) ∧
      (∀ c : ℝ, 0 ≤ c → c ≤ 1 → |readChannel (writeChannel c) - c| ≤ 1 / 255) ∧
      (∀ c : ℝ, 0 ≤ c → c ≤ 1 → writeChannel c = ⌊c * 255⌋) :=
  ⟨codec_buffer_roundtrip, roundtrip_approx, writeChannel_eq_floor⟩

theorem codec_round_trip_witness :
    (∀ v ∈ [Vec3.mk 0 1 (2 / 255)],
        quantizedChannel v.x ∧ quantizedChannel v.y ∧ quantizedChannel v.z) ∧
      readBuffer (writeBuffer [Vec3.mk 0 1 (2 / 255)]) = [Vec3.mk 0 1 (2 / 255)] ∧
      |readChannel (writeChannel (1 / 2)) - 1 / 2| ≤ 1 / 255 := by
  have hq : ∀ v ∈ [Vec3.mk 0 1 (2 / 255)],
      quantizedChannel v.x ∧ quantizedChannel v.y ∧ quantizedChannel v.z := by
    intro v hv
    rw [List.mem_singleton] at hv
    subst hv
    exact ⟨⟨0, by norm_num, by norm_num⟩, ⟨255, le_refl 255, by norm_num⟩,
      ⟨2, by norm_num, by norm_num⟩⟩
  exact ⟨hq, codec_round_trip.1 _ hq,
    codec_round_trip.2.1 (1 / 2) (by norm_num) (by norm_num)⟩

/-- Invariant tying an intersection's mutable cache state to its immutable
inputs: the underlying data never changes, each cache is either empty (and
never computed) or holds the canonical derived value (computed exactly once). -/
def cacheInv (t : ℝ) (r : Ray) (o : Obj) (i : Intersection) : Prop :=
  i.t = t ∧ i.ray = r ∧ i.object = o ∧
    ((i.cachePoint = none ∧ i.pointComputes = 0) ∨
      (i.cachePoint = some (r.at t) ∧ i.pointComputes ≤ 1)) ∧
    ((i.cacheNF = none ∧ i.nfComputes = 0) ∨
      (i.cacheNF = some (normalFrontOf o.1 r t) ∧ i.nfComputes ≤ 1))

theorem cacheInv_mk (t : ℝ) (r : Ray) (o : Obj) :
    cacheInv t r o (mkIntersection t r o) := by
  simp [cacheInv, mkIntersection]

theorem callPoint_spec (t : ℝ) (r : Ray) (o : Obj) (i : Intersection)
    (h : cacheInv t r o i) :
    (callPoint i).1 = r.at t ∧ cacheInv t r o (callPoint i).2 := by
  obtain ⟨ht, hr, ho, hcp, hnf⟩ := h
  rcases hcp with ⟨hc, hn⟩ | ⟨hc, hn⟩
  · constructor
    · simp [callPoint, hc, ht, hr]
    · simp only [callPoint, hc]
      exact ⟨ht, hr, ho, Or.inr ⟨by simp [ht, hr], by simp [hn]⟩, by simpa using hnf⟩
  · constructor
    · simp [callPoint, hc]
    · simp only [callPoint, hc]
      exact ⟨ht, hr, ho, Or.inr ⟨hc, hn⟩, hnf⟩

theorem callNormalFront_spec (t : ℝ) (r : Ray) (o : Obj) (i : Intersection)
    (h : cacheInv t r o i) :
    (callNormalFront i).1 = normalFrontOf o.1 r t ∧
      cacheInv t r o (callNormalFront i).2 := by
  obtain ⟨hpt, hval2⟩ := callPoint_spec t r o i h
  obtain ⟨ht, hr, ho, hcp, hnf⟩ := h
  obtain ⟨ht2, hr2, ho2, hcp2, hnf2⟩ := hval2
  rcases hnf with ⟨hc, hn⟩ | ⟨hc, hn⟩
  · have hnfpres : (callPoint i).2.cacheNF = i.cacheNF ∧
        (callPoint i).2.nfComputes = i.nfComputes := by
      rcases hcpc : i.cachePoint with _ | p
      · simp [callPoint, hcpc]
      · simp [callPoint, hcpc]
    have hcompute :
        (o.1.normal ((callPoint i).1),
            decide ((callPoint i).2.ray.direction.dot (o.1.normal ((callPoint i).1)) < 0)) =
          (((Sphere.normal o.1 (r.at t)),
            decide (r.direction.dot (Sphere.normal o.1 (r.at t)) < 0))) := by
      rw [hpt, hr2]
    constructor
    · simp only [callNormalFront, hc]
      rw [ho2, hpt, hr2]
      simp [normalFrontOf]
    · simp only [callNormalFront, hc]
      refine ⟨ht2, hr2, ho2, hcp2, Or.inr ⟨?_, ?_⟩⟩
      · rw [ho2, hpt, hr2]
        simp [normalFrontOf]
      · simp [hnfpres.2, hn]
  · constructor
    · simp only [callNormalFront, hc]
    · simp only [callNormalFront, hc]
      exact ⟨ht, hr, ho, hcp, Or.inr ⟨hc, hn⟩⟩

theorem applyCall_inv (t : ℝ) (r : Ray) (o : Obj) (c : CacheCall) (i : Intersection)
    (h : cacheInv t r o i) : cacheInv t r o (applyCall c i) := by
  cases c
  · exact (callPoint_spec t r o i h).2
  · exact (callNormalFront_spec t r o i h).2
  · exact (callNormalFront_spec t r o i h).2

theorem execCalls_inv (t : ℝ) (r : Ray) (o : Obj) :
    ∀ (l : List CacheCall) (i : Intersection),
      cacheInv t r o i → cacheInv t r o (execCalls l i) := by
  intro l
  induction l with
  | nil => intro i h; exact h
  | cons c cs ih => intro i h; exact ih (applyCall c i) (applyCall_inv t r o c i h)

/-- Claim C7: the lazily cached hit point and (oriented normal, front-face)
pair are each computed at most once, and after any sequence of `point`,
`normal`, `front` accessor calls, in any order, each accessor still returns
exactly the value the first call produced (all readers observe one consistent
point/normal/front triple). -/
theorem intersection_cache_consistent (t : ℝ) (r : Ray) (o : Obj)
    (l : List CacheCall) :
    (callPoint (execCalls l (mkIntersection t r o))).1 =
        (callPoint (mkIntersection t r o)).1 ∧
      (callNormalFront (execCalls l (mkIntersection t r o))).1 =
        (callNormalFront (mkIntersection t r o)).1 ∧
      (execCalls l (mkIntersection t r o)).pointComputes ≤ 1 ∧
      (execCalls l (mkIntersection t r o)).nfComputes ≤ 1 := by
  have hinv0 := cacheInv_mk t r o
  have hinv := execCalls_inv t r o l (mkIntersection t r o) hinv0
  refine ⟨?_, ?_, ?_, ?_⟩
  · rw [(callPoint_spec t r o _ hinv).1, (callPoint_spec t r o _ hinv0).1]
  · rw [(callNormalFront_spec t r o _ hinv).1, (callNormalFront_spec t r o _ hinv0).1]
  · rcases hinv.2.2.2.1 with ⟨_, h0⟩ | ⟨_, h1⟩
    · omega
    · exact h1
  · rcases hinv.2.2.2.2 with ⟨_, h0⟩ | ⟨_, h1⟩
    · omega
    · exact h1

theorem Vec3.dot_cross_self_left (a b : Vec3) : a.dot (a.cross b) = 0 := by
  simp only [Vec3.dot, Vec3.cross]
  ring

theorem Vec3.dot_cross_self_right (a b : Vec3) : b.dot (a.cross b) = 0 := by
  simp only [Vec3.dot, Vec3.cross]
  ring

theorem Vec3.normSq_cross (a b : Vec3) :
    (a.cross b).normSq = a.normSq * b.normSq - a.dot b ^ 2 := by
  simp only [Vec3.normSq, Vec3.dot, Vec3.cross]
  ring

theorem Vec3.dot_smul_right (a : Vec3) (s : ℝ) (b : Vec3) :
    a.dot (s • b) = s * a.dot b := by
  simp only [Vec3.dot, Vec3.smul_x, Vec3.smul_y, Vec3.smul_z]
  ring

theorem Vec3.dot_smul_left (s : ℝ) (a b : Vec3) :
    (s • a).dot b = s * a.dot b := by
  simp only [Vec3.dot, Vec3.smul_x, Vec3.smul_y, Vec3.smul_z]
  ring

theorem Vec3.dot_normalize_right (a b : Vec3) :
    a.dot b.normalize = 1 / b.norm * a.dot b := by
  rw [Vec3.normalize, Vec3.dot_smul_right]

theorem normSq_combo (f r w : Vec3) (a b c : ℝ)
    (hf : f.normSq = 1) (hr : r.normSq = 1) (hw : w.normSq = 1)
    (hfr : f.dot r = 0) (hfw : f.dot w = 0) (hrw : r.dot w = 0) :
    (a • f + b • r + c • w).normSq = a ^ 2 + b ^ 2 + c ^ 2 := by
  simp only [Vec3.normSq, Vec3.dot, Vec3.add_x, Vec3.add_y, Vec3.add_z,
    Vec3.smul_x, Vec3.smul_y, Vec3.smul_z] at hf hr hw hfr hfw hrw ⊢
  linear_combination a ^ 2 * hf + b ^ 2 * hr + c ^ 2 * hw + (2 * a * b) * hfr +
    (2 * a * c) * hfw + (2 * b * c) * hrw

theorem dot_combo_f (f r w : Vec3) (a b c : ℝ)
    (hf : f.normSq = 1) (hfr : f.dot r = 0) (hfw : f.dot w = 0) :
    (a • f + b • r + c • w).dot f = a := by
  simp only [Vec3.normSq, Vec3.dot, Vec3.add_x, Vec3.add_y, Vec3.add_z,
    Vec3.smul_x, Vec3.smul_y, Vec3.smul_z] at hf hfr hfw ⊢
  linear_combination a * hf + b * hfr + c * hfw

theorem ray_at_core (f rt w : Vec3) (fd fpw fph lr u v dx dy : ℝ)
    (hf : f.normSq = 1) (hrt : rt.normSq = 1) (hw : w.normSq = 1)
    (hfr : f.dot rt = 0) (hfw : f.dot w = 0) (hrw : rt.dot w = 0)
    (hfd : 0 < fd) (hlr : 0 ≤ lr) (hdisc : dx ^ 2 + dy ^ 2 ≤ 1) :
    ((fd • f + (u - 0.5) • (fpw • rt) + (v - 0.5) • (fph • w)) -
        lr • (dx • rt + dy • w)).normalize.norm = 1 ∧
      (lr • (dx • rt + dy • w)).norm ≤ lr := by
  have hvec : (fd • f + (u - 0.5) • (fpw • rt) + (v - 0.5) • (fph • w)) -
      lr • (dx • rt + dy • w) =
      fd • f + ((u - 0.5) * fpw - lr * dx) • rt + ((v - 0.5) * fph - lr * dy) • w := by
    ext <;> simp <;> ring
  have hoff : lr • (dx • rt + dy • w) =
      (0 : ℝ) • f + (lr * dx) • rt + (lr * dy) • w := by
    ext <;> simp <;> ring
  constructor
  · rw [hvec]
    have hd : (fd • f + ((u - 0.5) * fpw - lr * dx) • rt +
        ((v - 0.5) * fph - lr * dy) • w).dot f = fd :=
      dot_combo_f f rt w fd _ _ hf hfr hfw
    have hne : (fd • f + ((u - 0.5) * fpw - lr * dx) • rt +
        ((v - 0.5) * fph - lr * dy) • w).normSq ≠ 0 := by
      intro h0
      have hz := (Vec3.normSq_eq_zero_iff _).mp h0
      rw [hz, Vec3.zero_dot] at hd
      linarith
    exact Vec3.norm_eq_one_of_normSq _ (Vec3.normSq_normalize _ hne)
  · rw [hoff]
    have hns : ((0 : ℝ) • f + (lr * dx) • rt + (lr * dy) • w).normSq =
        0 ^ 2 + (lr * dx) ^ 2 + (lr * dy) ^ 2 :=
      normSq_combo f rt w 0 (lr * dx) (lr * dy) hf hrt hw hfr hfw hrw
    rw [Vec3.norm, hns]
    have hle : 0 ^ 2 + (lr * dx) ^ 2 + (lr * dy) ^ 2 ≤ lr ^ 2 := by
      nlinarith [mul_nonneg (sq_nonneg lr) (sub_nonneg.mpr hdisc)]
    calc Real.sqrt (0 ^ 2 + (lr * dx) ^ 2 + (lr * dy) ^ 2) ≤ Real.sqrt (lr ^ 2) :=
          Real.sqrt_le_sqrt hle
      _ = lr := Real.sqrt_sq hlr

/-- Claim C6: for a camera built by `look_at` from non-degenerate parameters
(target distinct from origin, independent up direction, positive focus
distance, nonnegative aperture) and any image coordinates and unit-disc lens
sample, `ray_at` returns a ray whose direction has unit length and whose
origin lies within `lens_radius = aperture / 2` of the camera's true origin. -/
theorem camera_ray_at_guarantees (o tgt up : Vec3) (fov ar ap fd u v dx dy : ℝ)
    (h1 : (tgt - o).normSq ≠ 0)
    (h2 : ((tgt - o).normalize.cross up).normSq ≠ 0)
    (h3 : 0 < fd) (h4 : 0 ≤ ap) (h5 : dx ^ 2 + dy ^ 2 ≤ 1) :
    ((Camera.look_at o tgt up fov ar ap fd).ray_at u v dx dy).direction.norm = 1 ∧
      (((Camera.look_at o tgt up fov ar ap fd).ray_at u v dx dy).origin - o).norm ≤
        ap / 2 := by
  have hf : (tgt - o).normalize.normSq = 1 := Vec3.normSq_normalize _ h1
  have hrt : ((tgt - o).normalize.cross up).normalize.normSq = 1 :=
    Vec3.normSq_normalize _ h2
  have hfr : (tgt - o).normalize.dot ((tgt - o).normalize.cross up).normalize = 0 := by
    rw [Vec3.dot_normalize_right, Vec3.dot_cross_self_left, mul_zero]
  have hfw : (tgt - o).normalize.dot
      (((tgt - o).normalize.cross up).normalize.cross (tgt - o).normalize) = 0 :=
    Vec3.dot_cross_self_right _ _
  have hrw : ((tgt - o).normalize.cross up).normalize.dot
      (((tgt - o).normalize.cross up).normalize.cross (tgt - o).normalize) = 0 :=
    Vec3.dot_cross_self_left _ _
  have hw : (((tgt - o).normalize.cross up).normalize.cross (tgt - o).normalize).normSq = 1 := by
    rw [Vec3.normSq_cross, hrt, hf]
    have : ((tgt - o).normalize.cross up).normalize.dot (tgt - o).normalize = 0 := by
      rw [Vec3.dot_comm]
      exact hfr
    rw [this]
    norm_num
  have hlr : 0 ≤ ap / 2 := by linarith
  obtain ⟨hdir, horig⟩ := ray_at_core (tgt - o).normalize
    ((tgt - o).normalize.cross up).normalize
    (((tgt - o).normalize.cross up).normalize.cross (tgt - o).normalize)
    fd (2 * Real.tan (fov / 2) * fd * ar) (2 * Real.tan (fov / 2) * fd) (ap / 2)
    u v dx dy hf hrt hw hfr hfw hrw h3 hlr h5
  constructor
  · simp only [Camera.look_at, Camera.ray_at]
    exact hdir
  · simp only [Camera.look_at, Camera.ray_at]
    have hsub : ∀ a b : Vec3, (a + b) - a = b := by
      intro a b
      ext <;> simp
    rw [hsub]
    exact horig

theorem camera_ray_at_guarantees_witness :
    (Vec3.mk 0 0 (-1) - Vec3.mk 0 0 0).normSq ≠ 0 ∧
      ((Vec3.mk 0 0 (-1) - Vec3.mk 0 0 0).normalize.cross (Vec3.mk 0 1 0)).normSq ≠ 0 ∧
      (((Camera.look_at (Vec3.mk 0 0 0) (Vec3.mk 0 0 (-1)) (Vec3.mk 0 1 0)
            0 1 0 1).ray_at 0 0 0 0).direction.norm = 1 ∧
        (((Camera.look_at (Vec3.mk 0 0 0) (Vec3.mk 0 0 (-1)) (Vec3.mk 0 1 0)
            0 1 0 1).ray_at 0 0 0 0).origin - Vec3.mk 0 0 0).norm ≤ 0 / 2) := by
  have h1 : (Vec3.mk 0 0 (-1) - Vec3.mk 0 0 0).normSq ≠ 0 := by
    norm_num [Vec3.normSq, Vec3.dot]
  have h2 : ((Vec3.mk 0 0 (-1) - Vec3.mk 0 0 0).normalize.cross (Vec3.mk 0 1 0)).normSq ≠ 0 := by
    norm_num [Vec3.normalize, Vec3.norm, Vec3.normSq, Vec3.dot, Vec3.cross,
      Real.sqrt_one]
  exact ⟨h1, h2,
    camera_ray_at_guarantees (Vec3.mk 0 0 0) (Vec3.mk 0 0 (-1)) (Vec3.mk 0 1 0)
      0 1 0 1 0 0 0 0 h1 h2 (by norm_num) (by norm_num) (by norm_num)⟩

end









